import Mathlib

/-!
Verification of `omniduct/databases/_namespaces.py` (`ParsedNamespaces`).

Python strings are modelled as `List Char`; Python `None` vs a string value
is modelled by `Option`; the `OrderedDict` that backs an instance is modelled
as an association list together with operations (`odGet`, `odInsert`,
`odOfList`) that mirror ordered-dict lookup, in-place update / appending
insertion, and construction from a sequence of pairs.  The regular expression
scan performed by `re.findall` in `from_name` is modelled by the fuelled
scanner `tokenizeGo` (fuel bounds the number of scan steps; each step consumes
at least one character, so `length` fuel is always enough).
-/

namespace Omniduct

/-- Model of a Python `str` value. -/
abbrev Str := List Char

/-- Truthiness of an optional string slot: Python treats both `None` and the
empty string as falsy. -/
def truthyOpt : Option Str → Bool
  | some v => !v.isEmpty
  | none => false

/-- `parsed.get(ns)` on the ordered dict: the stored value when the key is
present (which may itself be `None`), else `None`. -/
def odGet (m : List (Str × Option Str)) (k : Str) : Option Str :=
  match m.find? (fun q => q.1 = k) with
  | some q => q.2
  | none => none

/-- `parsed[k] = v` on the ordered dict: update in place when the key is
present, otherwise append at the end (Python dict insertion order). -/
def odInsert (m : List (Str × Option Str)) (k : Str) (v : Option Str) :
    List (Str × Option Str) :=
  if m.any (fun q => q.1 = k) then
    m.map (fun q => if q.1 = k then (q.1, v) else q)
  else
    m ++ [(k, v)]

/-- `OrderedDict(pairs)`: fold the pairs through dict assignment. -/
def odOfList (pairs : List (Str × Option Str)) : List (Str × Option Str) :=
  pairs.foldl (fun m q => odInsert m q.1 q.2) []

/-- `ns in defaults` / `defaults[ns]` on the defaults dict. -/
def dLookup (d : List (Str × Str)) (k : Str) : Option Str :=
  (d.find? (fun q => q.1 = k)).map (fun q => q.2)

/-- Character class of the first regex alternative `[^{sep}{qc}]+`:
neither the separator nor the quote character. -/
def isRunChar (sep qc d : Char) : Bool :=
  d != sep && d != qc

/-- Character class of the lazily matched quoted content `[^`]*?` together
with its terminator: the scan for the closing quote stops at the first
quote character or backtick. -/
def isContentChar (qc d : Char) : Bool :=
  d != qc && d != '`'

/-- One `re.findall` scan for the pattern
`([^{sep}{qc}]+)|{qc}([^`]*?){qc}`: at each position try the unquoted run
first, then a quoted span (which succeeds only when a closing quote is
reached before any backtick), else advance one character.  The fuel
argument bounds the number of scan steps. -/
def tokenizeGo (qc sep : Char) : Nat → List Char → List Str
  | _, [] => []
  | 0, _ :: _ => []
  | fuel + 1, c :: cs =>
    if isRunChar sep qc c then
      (c :: cs.takeWhile (isRunChar sep qc)) ::
        tokenizeGo qc sep fuel (cs.dropWhile (isRunChar sep qc))
    else if c = qc then
      match cs.dropWhile (isContentChar qc) with
      | d :: rest =>
        if d = qc then
          cs.takeWhile (isContentChar qc) :: tokenizeGo qc sep fuel rest
        else
          tokenizeGo qc sep fuel cs
      | [] => tokenizeGo qc sep fuel cs
    else
      tokenizeGo qc sep fuel cs

/-- `namespace_matcher.findall(name)` followed by `''.join` over each tuple
of groups: the list of matched components, in order. -/
def tokenize (qc sep : Char) (s : Str) : List Str :=
  tokenizeGo qc sep s.length s

/-- Python `str.join`: the joining string is placed between consecutive
elements. -/
def pyJoin (sep : Str) : List Str → Str
  | [] => []
  | [v] => v
  | v :: vs => v ++ sep ++ pyJoin sep vs

/-- The parsed-namespaces value: the ordered mapping `self.__names` plus the
lexical parameters `self.__quote_char` and `self.__separator`. -/
structure ParsedNamespaces where
  names : List (Str × Option Str)
  quote_char : Char
  separator : Char
deriving DecidableEq, Repr

/-- The comprehension
`reversed([(ns, names.pop() if names else None) for ns in namespaces[::-1]])`
before reversal: the first argument is the already-reversed schema, the
second the list of components, popped from its end. -/
def popAssign : List Str → List Str → List (Str × Option Str)
  | [], _ => []
  | ns :: rest, toks =>
    match toks.getLast? with
    | some t => (ns, some t) :: popAssign rest toks.dropLast
    | none => (ns, none) :: popAssign rest toks

/-- The defaulting pass of `from_name`: iterate over the reversed schema; a
resolved namespace is skipped; an unresolved namespace with a default gets the
default (dict assignment); an unresolved namespace without one ends the pass. -/
def applyDefaults (defaults : List (Str × Str)) :
    List Str → List (Str × Option Str) → List (Str × Option Str)
  | [], parsed => parsed
  | ns :: rest, parsed =>
    if truthyOpt (odGet parsed ns) then
      applyDefaults defaults rest parsed
    else
      match dLookup defaults ns with
      | some v => applyDefaults defaults rest (odInsert parsed ns (some v))
      | none => parsed

/-- `ParsedNamespaces.__init__`: when a (truthy, i.e. non-empty) `namespaces`
list is given, rebuild the mapping as
`OrderedDict((ns, names.get(ns, None)) for ns in namespaces)`; otherwise store
the mapping as given. -/
def init (names : List (Str × Option Str)) (nss : Option (List Str))
    (qc sep : Char) : ParsedNamespaces :=
  match nss with
  | some l =>
    if l.isEmpty then ⟨names, qc, sep⟩
    else ⟨odOfList (l.map (fun ns => (ns, odGet names ns))), qc, sep⟩
  | none => ⟨names, qc, sep⟩

/-- `self.namespaces`: the keys of the mapping, in order. -/
def namespacesOf (p : ParsedNamespaces) : List Str :=
  p.names.map (fun q => q.1)

/-- `self.as_dict()`: returns the (internal) ordered mapping. -/
def as_dict (p : ParsedNamespaces) : List (Str × Option Str) :=
  p.names

/-- The argument to `from_name`: a `str` or a `ParsedNamespaces` instance
(any other type raises and is outside this model). -/
inductive NameInput
  | str : Str → NameInput
  | pns : ParsedNamespaces → NameInput

/-- The expected-form part `<a>{sep}<b>...` of the overflow error message:
`">{sep}<".join(namespaces)` wrapped in one `<`/`>` pair. -/
def schemaForm (namespaces : List Str) (sep : Char) : Str :=
  "<".toList ++ pyJoin (">".toList ++ [sep] ++ "<".toList) namespaces ++ ">".toList

/-- The message of the `ValueError` raised when a raw name has more
components than the schema has slots. -/
def overflowMsg (s : Str) (namespaces : List Str) (sep : Char) : Str :=
  "Name '".toList ++ s ++ "' has too many namespaces. Should be of form: ".toList
    ++ schemaForm namespaces sep ++ ".".toList

/-- `ParsedNamespaces.from_name`.  The `ParsedNamespaces` branch checks that
the input's namespaces are a subset of the target schema and reuses its
mapping as is (the message's listing of the extra namespaces, a Python `set`
display, is elided); the `str` branch tokenizes (an empty string bypasses the
regex), checks for overflow and right-aligns by popping components from the
end along the reversed schema.  Both branches then run the defaulting pass
and call the constructor without a `namespaces` argument. -/
def from_name (name : NameInput) (namespaces : List Str) (qc sep : Char)
    (defaults : List (Str × Str)) : Except Str ParsedNamespaces :=
  match name with
  | .pns p =>
    if (namespacesOf p).filter (fun ns => !(namespaces.contains ns)) ≠ [] then
      .error ("ParsedNamespace is not encapsulated by the namespaces provided to this constructor. It has extra namespaces.".toList)
    else
      .ok (init (applyDefaults defaults namespaces.reverse (as_dict p)) none qc sep)
  | .str s =>
    let toks := if s.isEmpty then [] else tokenize qc sep s
    if toks.length > namespaces.length then
      .error (overflowMsg s namespaces sep)
    else
      .ok (init
        (applyDefaults defaults namespaces.reverse
          (odOfList ((popAssign namespaces.reverse toks).reverse)))
        none qc sep)

/-- `self.name`: the truthy values, in mapping order, wrapped in the quote
character and joined by `quote_char + "." + quote_char` — the joining
character between components is the literal `'.'` from the format string
`"{qc}.{qc}"`, not `self.__separator`. -/
def name (p : ParsedNamespaces) : Str :=
  let vals := ((p.names.filter (fun q => truthyOpt q.2)).map (fun q => q.2.getD []))
  if vals.isEmpty then []
  else [p.quote_char] ++ pyJoin ([p.quote_char] ++ ['.'] ++ [p.quote_char]) vals
    ++ [p.quote_char]

/-- `self.parent`: copy the mapping, `popitem()` the last entry (raising
`KeyError` on an empty mapping), and build a new instance. -/
def parent (p : ParsedNamespaces) : Except Str ParsedNamespaces :=
  if p.names.isEmpty then
    .error ("KeyError: dictionary is empty".toList)
  else
    .ok (init p.names.dropLast none p.quote_char p.separator)

/-- Wrapping of one component in the quote character, for spec-level
renderings. -/
def wrapQuote (qc : Char) (v : Str) : Str :=
  qc :: v ++ [qc]

/-- Modelled from the spec: the rendering C2 claims, namely the resolved
values in schema order, each wrapped in `quote_char`, with the instance's
`separator` between consecutive wrapped components. -/
def nameClaimRender (p : ParsedNamespaces) : Str :=
  pyJoin [p.separator]
    (((p.names.filter (fun q => truthyOpt q.2)).map (fun q => q.2.getD [])).map
      (wrapQuote p.quote_char))

/-- Modelled from the spec, amended: as `nameClaimRender` but with the
literal `'.'` the code actually joins with, in place of the configured
separator. -/
def nameAmendedRender (p : ParsedNamespaces) : Str :=
  pyJoin ['.']
    (((p.names.filter (fun q => truthyOpt q.2)).map (fun q => q.2.getD [])).map
      (wrapQuote p.quote_char))

/-- Dropping a matched span never lengthens the input. -/
theorem length_dropWhile_le (p : Char → Bool) (l : List Char) :
    (l.dropWhile p).length ≤ l.length := by
  induction l with
  | nil => simp [List.dropWhile]
  | cons c cs ih =>
    by_cases h : p c
    · simp only [List.dropWhile, h]
      exact Nat.le_succ_of_le ih
    · simp [List.dropWhile, h]

/-- The scanner is fuel-insensitive once the fuel covers the input length. -/
theorem tokenizeGo_fuel (qc sep : Char) :
    ∀ f₁ : Nat, ∀ (l : List Char) (f₂ : Nat), l.length ≤ f₁ → l.length ≤ f₂ →
      tokenizeGo qc sep f₁ l = tokenizeGo qc sep f₂ l := by
  intro f₁
  induction f₁ with
  | zero =>
    intro l f₂ h₁ _
    have hl : l = [] := List.length_eq_zero.mp (Nat.le_zero.mp h₁)
    subst hl
    cases f₂ <;> rfl
  | succ f ih =>
    intro l f₂ h₁ h₂
    cases l with
    | nil => cases f₂ <;> rfl
    | cons c cs =>
      cases f₂ with
      | zero => exact absurd h₂ (by simp)
      | succ g =>
        have hcs₁ : cs.length ≤ f := Nat.le_of_succ_le_succ h₁
        have hcs₂ : cs.length ≤ g := Nat.le_of_succ_le_succ h₂
        by_cases hr : isRunChar sep qc c
        · simp only [tokenizeGo, if_pos hr]
          have hd := length_dropWhile_le (isRunChar sep qc) cs
          rw [ih (cs.dropWhile (isRunChar sep qc)) g (le_trans hd hcs₁)
            (le_trans hd hcs₂)]
        · by_cases hq : c = qc
          · simp only [tokenizeGo, if_neg hr, if_pos hq]
            cases hdr : cs.dropWhile (isContentChar qc) with
            | nil => exact ih cs g hcs₁ hcs₂
            | cons d rest =>
              have hrest : rest.length + 1 ≤ cs.length := by
                have := length_dropWhile_le (isContentChar qc) cs
                rw [hdr] at this
                simpa using this
              by_cases hdq : d = qc
              · simp only [if_pos hdq]
                rw [ih rest g (by omega) (by omega)]
              · simp only [if_neg hdq]
                exact ih cs g hcs₁ hcs₂
          · simp only [tokenizeGo, if_neg hr, if_neg hq]
            exact ih cs g hcs₁ hcs₂

/-- One-step unfolding of the scan, with `tokenize` in the recursive
positions. -/
theorem tokenize_cons (qc sep c : Char) (cs : List Char) :
    tokenize qc sep (c :: cs) =
      if isRunChar sep qc c then
        (c :: cs.takeWhile (isRunChar sep qc)) ::
          tokenize qc sep (cs.dropWhile (isRunChar sep qc))
      else if c = qc then
        match cs.dropWhile (isContentChar qc) with
        | d :: rest =>
          if d = qc then cs.takeWhile (isContentChar qc) :: tokenize qc sep rest
          else tokenize qc sep cs
        | [] => tokenize qc sep cs
      else tokenize qc sep cs := by
  show tokenizeGo qc sep (c :: cs).length (c :: cs) = _
  simp only [List.length_cons, tokenizeGo]
  by_cases hr : isRunChar sep qc c
  · simp only [if_pos hr]
    have hd := length_dropWhile_le (isRunChar sep qc) cs
    rw [tokenizeGo_fuel qc sep cs.length (cs.dropWhile (isRunChar sep qc))
      (cs.dropWhile (isRunChar sep qc)).length hd (le_refl _)]
    rfl
  · by_cases hq : c = qc
    · simp only [if_neg hr, if_pos hq]
      cases hdr : cs.dropWhile (isContentChar qc) with
      | nil =>
        exact tokenizeGo_fuel qc sep cs.length cs cs.length (le_refl _) (le_refl _)
      | cons d rest =>
        have hrest : rest.length ≤ cs.length := by
          have := length_dropWhile_le (isContentChar qc) cs
          rw [hdr] at this
          simp at this
          omega
        by_cases hdq : d = qc
        · simp only [if_pos hdq]
          rw [tokenizeGo_fuel qc sep cs.length rest rest.length hrest (le_refl _)]
          rfl
        · simp only [if_neg hdq]
          rfl
    · simp only [if_neg hr, if_neg hq]
      rfl

/-- Scanning the empty string yields no components. -/
theorem tokenize_nil (qc sep : Char) : tokenize qc sep [] = [] := rfl

/-- `takeWhile` over a satisfying block stops exactly at the first failing
character. -/
theorem takeWhile_all_append (p : Char → Bool) (s : List Char) (b : Char)
    (t : List Char) (hs : ∀ a ∈ s, p a = true) (hb : p b = false) :
    (s ++ b :: t).takeWhile p = s := by
  induction s with
  | nil => simp [List.takeWhile, hb]
  | cons a s ih =>
    have ha : p a = true := hs a (by simp)
    simp only [List.cons_append, List.takeWhile, ha]
    exact congrArg (fun x => a :: x) (ih (fun x hx => hs x (by simp [hx])))

/-- `dropWhile` over a satisfying block drops exactly up to the first failing
character. -/
theorem dropWhile_all_append (p : Char → Bool) (s : List Char) (b : Char)
    (t : List Char) (hs : ∀ a ∈ s, p a = true) (hb : p b = false) :
    (s ++ b :: t).dropWhile p = b :: t := by
  induction s with
  | nil => simp [List.dropWhile, hb]
  | cons a s ih =>
    have ha : p a = true := hs a (by simp)
    simp only [List.cons_append, List.dropWhile, ha]
    exact ih (fun x hx => hs x (by simp [hx]))

/-- A span delimited by the quote character, whose content has no quote
character and no backtick, scans as that single verbatim component. -/
theorem tokenize_quoted (qc sep : Char) (s rest : List Char)
    (hs : ∀ a ∈ s, a ≠ qc ∧ a ≠ '`') :
    tokenize qc sep (qc :: (s ++ qc :: rest)) = s :: tokenize qc sep rest := by
  have hrun : ¬ (isRunChar sep qc qc = true) := by simp [isRunChar]
  have hcontent : ∀ a ∈ s, isContentChar qc a = true := by
    intro a ha
    simp [isContentChar, (hs a ha).1, (hs a ha).2]
  have hstop : isContentChar qc qc = false := by simp [isContentChar]
  rw [tokenize_cons, if_neg hrun, if_pos rfl,
    dropWhile_all_append (isContentChar qc) s qc rest hcontent hstop,
    takeWhile_all_append (isContentChar qc) s qc rest hcontent hstop]
  simp

/-- A separator character at the head of the input (when distinct from the
quote character) is skipped without producing a component. -/
theorem tokenize_sep (qc sep : Char) (l : List Char) (h : sep ≠ qc) :
    tokenize qc sep (sep :: l) = tokenize qc sep l := by
  have hrun : ¬ (isRunChar sep qc sep = true) := by simp [isRunChar]
  rw [tokenize_cons, if_neg hrun, if_neg h]

/-- With no defaults the defaulting pass never changes the mapping. -/
theorem applyDefaults_nil (l : List Str) (m : List (Str × Option Str)) :
    applyDefaults [] l m = m := by
  induction l with
  | nil => rfl
  | cons ns rest ih =>
    by_cases h : truthyOpt (odGet m ns) <;>
      simp [applyDefaults, h, dLookup, ih]

/-- Characterization of the pop-from-the-end assignment: the first (most
specific) entries of the reversed schema receive the components in reverse
order, the remaining entries receive `none`. -/
theorem popAssign_eq (l : List Str) :
    ∀ r : List Str, popAssign l r.reverse =
      l.zip (r.map some ++ List.replicate (l.length - r.length) none) := by
  induction l with
  | nil => intro r; rfl
  | cons a l ih =>
    intro r
    cases r with
    | nil =>
      have := ih []
      simp only [List.reverse_nil, List.map_nil, List.nil_append] at this ⊢
      simp [popAssign, this, List.replicate_succ]
    | cons b r =>
      have := ih r
      simp only [List.reverse_cons, popAssign, List.getLast?_concat,
        List.dropLast_concat, this, List.map_cons, List.cons_append,
        List.zip_cons_cons, List.length_cons, Nat.succ_sub_succ]

/-- Reversal distributes over `zip` of equal-length lists. -/
theorem zip_reverse {α β : Type} :
    ∀ (l₁ : List α) (l₂ : List β), l₁.length = l₂.length →
      (l₁.zip l₂).reverse = l₁.reverse.zip l₂.reverse := by
  intro l₁
  induction l₁ with
  | nil => intro l₂ h; simp
  | cons a l₁ ih =>
    intro l₂ h
    cases l₂ with
    | nil => simp at h
    | cons b l₂ =>
      have hlen : l₁.length = l₂.length := by simpa using h
      have hrev : l₁.reverse.length = l₂.reverse.length := by simp [hlen]
      rw [List.zip_cons_cons, List.reverse_cons, ih l₂ hlen,
        List.reverse_cons, List.reverse_cons, List.zip_append hrev]
      simp [List.zip]

/-- Right-alignment in schema order: for at most schema-many components, the
constructed pair list pads the most-general entries with `none` and assigns
the components, in order, to the least-general entries. -/
theorem popAssign_reverse (ns toks : List Str) (h : toks.length ≤ ns.length) :
    (popAssign ns.reverse toks).reverse =
      ns.zip (List.replicate (ns.length - toks.length) none ++ toks.map some) := by
  have h₁ : popAssign ns.reverse toks =
      ns.reverse.zip (toks.reverse.map some ++
        List.replicate (ns.length - toks.length) none) := by
    have := popAssign_eq ns.reverse toks.reverse
    rw [List.reverse_reverse] at this
    simpa using this
  rw [h₁, zip_reverse ns.reverse _ (by simp; omega), List.reverse_reverse,
    List.reverse_append, List.reverse_replicate, List.map_reverse,
    List.reverse_reverse]

/-- Dict assignment with a fresh key appends the pair at the end. -/
theorem odInsert_absent (m : List (Str × Option Str)) (k : Str) (v : Option Str)
    (h : ∀ q ∈ m, q.1 ≠ k) : odInsert m k v = m ++ [(k, v)] := by
  unfold odInsert
  rw [if_neg]
  simp only [List.any_eq_true, decide_eq_true_eq]
  push_neg
  exact h

/-- Folding dict assignment over pairs with globally distinct keys just
appends them. -/
theorem odOfList_foldl (pairs : List (Str × Option Str)) :
    ∀ acc : List (Str × Option Str),
      ((acc ++ pairs).map (fun q => q.1)).Nodup →
      pairs.foldl (fun m q => odInsert m q.1 q.2) acc = acc ++ pairs := by
  induction pairs with
  | nil => intro acc _; simp
  | cons q rest ih =>
    intro acc h
    have habs : ∀ p ∈ acc, p.1 ≠ q.1 := by
      intro p hp hk
      rw [List.map_append, List.nodup_append] at h
      have h1 : p.1 ∈ acc.map (fun r => r.1) := List.mem_map_of_mem _ hp
      rw [hk] at h1
      have h2 : q.1 ∈ (q :: rest).map (fun r => r.1) := by simp
      exact h.2.2 h1 h2
    rw [List.foldl_cons, odInsert_absent acc q.1 q.2 habs]
    have harr : (acc ++ [(q.1, q.2)]) ++ rest = acc ++ q :: rest := by simp
    have := ih (acc ++ [(q.1, q.2)]) (by rw [harr]; exact h)
    rw [this, harr]

/-- `OrderedDict` construction from pairs with distinct keys is the identity. -/
theorem odOfList_self (pairs : List (Str × Option Str))
    (h : (pairs.map (fun q => q.1)).Nodup) : odOfList pairs = pairs := by
  have := odOfList_foldl pairs [] (by simpa using h)
  simpa [odOfList] using this

/-- The keys produced by the pop-from-the-end assignment are exactly the
schema entries it walked over. -/
theorem popAssign_keys :
    ∀ (l toks : List Str), (popAssign l toks).map (fun q => q.1) = l := by
  intro l
  induction l with
  | nil => intro toks; rfl
  | cons ns rest ih =>
    intro toks
    unfold popAssign
    cases toks.getLast? <;> simp [ih]

/-- Dict assignment with an existing key leaves the key list unchanged. -/
theorem odInsert_keys (m : List (Str × Option Str)) (k : Str) (v : Option Str)
    (h : k ∈ m.map (fun q => q.1)) :
    (odInsert m k v).map (fun q => q.1) = m.map (fun q => q.1) := by
  unfold odInsert
  rw [if_pos]
  · rw [List.map_map]
    refine List.map_congr_left ?_
    intro q _
    by_cases hq : q.1 = k <;> simp [hq]
  · simp only [List.any_eq_true, decide_eq_true_eq]
    rcases List.mem_map.mp h with ⟨q, hq, hk⟩
    exact ⟨q, hq, hk⟩

/-- The defaulting pass never changes the key list when every scanned
namespace is already a key. -/
theorem applyDefaults_keys (d : List (Str × Str)) :
    ∀ (l : List Str) (m : List (Str × Option Str)),
      (∀ ns ∈ l, ns ∈ m.map (fun q => q.1)) →
      (applyDefaults d l m).map (fun q => q.1) = m.map (fun q => q.1) := by
  intro l
  induction l with
  | nil => intro m _; rfl
  | cons ns rest ih =>
    intro m h
    unfold applyDefaults
    by_cases ht : truthyOpt (odGet m ns)
    · simp only [ht, if_true]
      exact ih m (fun x hx => h x (by simp [hx]))
    · simp only [ht, Bool.false_eq_true, if_false]
      cases hd : dLookup d ns with
      | none => rfl
      | some v =>
        have hins := odInsert_keys m ns (some v) (h ns (by simp))
        rw [ih (odInsert m ns (some v))
          (fun x hx => by rw [hins]; exact h x (by simp [hx])), hins]

/-- The string branch of `from_name` with no defaults and no overflow:
the result is the right-aligned assignment, in schema order. -/
theorem from_name_str_ok (raw : Str) (ns toks : List Str) (qc sep : Char)
    (hnd : ns.Nodup) (htok : tokenize qc sep raw = toks)
    (hlen : toks.length ≤ ns.length) :
    from_name (.str raw) ns qc sep [] =
      .ok ⟨ns.zip (List.replicate (ns.length - toks.length) none ++ toks.map some),
        qc, sep⟩ := by
  have hts : (if raw.isEmpty then [] else tokenize qc sep raw) = toks := by
    cases raw <;> exact htok
  have hkeys : ((popAssign ns.reverse toks).reverse.map (fun q => q.1)).Nodup := by
    rw [List.map_reverse, popAssign_keys, List.reverse_reverse]
    exact hnd
  simp only [from_name, hts]
  rw [if_neg (by omega), applyDefaults_nil, odOfList_self _ hkeys,
    popAssign_reverse ns toks hlen]
  rfl

/-- Wrapping each value in the quote character and joining with a bare dot is
the same string as joining with `qc + "." + qc` and wrapping the whole. -/
theorem wrap_join (qc : Char) :
    ∀ (v : Str) (vs : List Str),
      [qc] ++ pyJoin ([qc] ++ ['.'] ++ [qc]) (v :: vs) ++ [qc] =
        pyJoin ['.'] ((v :: vs).map (wrapQuote qc)) := by
  intro v vs
  induction vs generalizing v with
  | nil => simp [pyJoin, wrapQuote]
  | cons v2 rest ih =>
    have h2 : pyJoin ([qc] ++ ['.'] ++ [qc]) (v :: v2 :: rest) =
        v ++ ([qc] ++ ['.'] ++ [qc]) ++ pyJoin ([qc] ++ ['.'] ++ [qc]) (v2 :: rest) :=
      rfl
    have h3 : pyJoin ['.'] ((v :: v2 :: rest).map (wrapQuote qc)) =
        wrapQuote qc v ++ ['.'] ++ pyJoin ['.'] ((v2 :: rest).map (wrapQuote qc)) :=
      rfl
    rw [h2, h3, ← ih v2]
    simp [wrapQuote, List.append_assoc]

/-- Reading the resolved values back out of a fully resolved zip-built
mapping: every value is kept, in order. -/
theorem filter_map_zip :
    ∀ (ns vals : List Str), ns.length = vals.length →
      (∀ v ∈ vals, v ≠ []) →
      ((ns.zip (vals.map some)).filter (fun q => truthyOpt q.2)).map
          (fun q => q.2.getD []) = vals := by
  intro ns
  induction ns with
  | nil =>
    intro vals h _
    cases vals with
    | nil => rfl
    | cons v vs => simp at h
  | cons a ns ih =>
    intro vals h hv
    cases vals with
    | nil => simp at h
    | cons v vs =>
      have hlen : ns.length = vs.length := by simpa using h
      have hne : v ≠ [] := hv v (by simp)
      have ht : truthyOpt (some v) = true := by
        cases v with
        | nil => exact absurd rfl hne
        | cons x xs => rfl
      simp only [List.map_cons, List.zip_cons_cons, List.filter_cons, ht,
        if_true, List.map_cons]
      rw [ih vs hlen (fun x hx => hv x (by simp [hx]))]
      rfl

/-- Re-scanning a rendered name whose values are non-empty and contain
neither the quote character nor a backtick, with separator `'.'`, recovers
exactly the values. -/
theorem tokenize_render (qc : Char) (hqc : qc ≠ '.') :
    ∀ (v : Str) (vs : List Str),
      (∀ w ∈ v :: vs, ∀ c ∈ w, c ≠ qc ∧ c ≠ '`') →
      tokenize qc '.' ([qc] ++ pyJoin ([qc] ++ ['.'] ++ [qc]) (v :: vs) ++ [qc]) =
        v :: vs := by
  intro v vs
  induction vs generalizing v with
  | nil =>
    intro h
    have hshape : [qc] ++ pyJoin ([qc] ++ ['.'] ++ [qc]) [v] ++ [qc] =
        qc :: (v ++ qc :: []) := by
      simp [pyJoin]
    rw [hshape, tokenize_quoted qc '.' v [] (h v (by simp))]
    rfl
  | cons v2 rest ih =>
    intro h
    have h2 : pyJoin ([qc] ++ ['.'] ++ [qc]) (v :: v2 :: rest) =
        v ++ ([qc] ++ ['.'] ++ [qc]) ++ pyJoin ([qc] ++ ['.'] ++ [qc]) (v2 :: rest) :=
      rfl
    have hshape : [qc] ++ pyJoin ([qc] ++ ['.'] ++ [qc]) (v :: v2 :: rest) ++ [qc] =
        qc :: (v ++ qc ::
          ('.' :: ([qc] ++ pyJoin ([qc] ++ ['.'] ++ [qc]) (v2 :: rest) ++ [qc]))) := by
      rw [h2]
      simp [List.append_assoc]
    rw [hshape, tokenize_quoted qc '.' v _ (h v (by simp)),
      tokenize_sep qc '.' _ (Ne.symm hqc),
      ih v2 (fun w hw => h w (List.mem_cons_of_mem v hw))]

end Omniduct

open Omniduct

/-- C1, counterexample: when `from_name` receives an existing
`ParsedNamespaces` whose namespaces are a strict subset of the target schema,
the resulting instance keeps only the input's keys — the key list is not the
schema passed to `from_name`. -/
theorem c1_counterexample :
    from_name (.pns ⟨[("table".toList, some "t".toList)], '"', '.'⟩)
        ["database".toList, "table".toList] '"' '.' [] =
      .ok ⟨[("table".toList, some "t".toList)], '"', '.'⟩
    ∧ namespacesOf ⟨[("table".toList, some "t".toList)], '"', '.'⟩ ≠
      ["database".toList, "table".toList] :=
  ⟨rfl, by decide⟩

/-- C1, amended: for every instance constructed via `from_name` from a
string name (with a duplicate-free schema), the key list of the resulting
mapping is exactly the schema, in the schema's order — no extra keys, no
missing keys. -/
theorem c1_keys_amended (raw : Str) (ns : List Str) (qc sep : Char)
    (d : List (Str × Str)) (q : ParsedNamespaces) (hnd : ns.Nodup)
    (h : from_name (.str raw) ns qc sep d = .ok q) :
    namespacesOf q = ns := by
  revert h
  simp only [from_name]
  generalize (if raw.isEmpty then [] else tokenize qc sep raw) = T
  intro h
  by_cases hov : T.length > ns.length
  · rw [if_pos hov] at h
    cases h
  · rw [if_neg hov] at h
    injection h with h2
    have hkeys : (popAssign ns.reverse T).reverse.map (fun r => r.1) = ns := by
      rw [List.map_reverse, popAssign_keys, List.reverse_reverse]
    have hnd2 : ((popAssign ns.reverse T).reverse.map (fun r => r.1)).Nodup := by
      rw [hkeys]; exact hnd
    rw [← h2]
    show (applyDefaults d ns.reverse
        (odOfList ((popAssign ns.reverse T).reverse))).map (fun r => r.1) = ns
    rw [odOfList_self _ hnd2,
      applyDefaults_keys d ns.reverse ((popAssign ns.reverse T).reverse)
        (fun x hx => by rw [hkeys]; simpa using hx),
      hkeys]

/-- C1, witness for the amended theorem at a concrete parse. -/
theorem c1_keys_amended_witness :
    namespacesOf ⟨[("db".toList, none), ("tbl".toList, some "t".toList)], '"', '.'⟩ =
      ["db".toList, "tbl".toList] :=
  c1_keys_amended "t".toList ["db".toList, "tbl".toList] '"' '.' []
    ⟨[("db".toList, none), ("tbl".toList, some "t".toList)], '"', '.'⟩
    (by decide) rfl

/-- C2, counterexample: with separator `'/'` the rendered `name` still joins
with a literal `'.'`, so the configured separator does not appear between the
rendered components, contradicting the claim's rendering. -/
theorem c2_counterexample :
    name ⟨[("database".toList, some "db".toList),
      ("table".toList, some "tbl".toList)], '"', '/'⟩ = "\"db\".\"tbl\"".toList
    ∧ nameClaimRender ⟨[("database".toList, some "db".toList),
      ("table".toList, some "tbl".toList)], '"', '/'⟩ = "\"db\"/\"tbl\"".toList
    ∧ name ⟨[("database".toList, some "db".toList),
        ("table".toList, some "tbl".toList)], '"', '/'⟩ ≠
      nameClaimRender ⟨[("database".toList, some "db".toList),
        ("table".toList, some "tbl".toList)], '"', '/'⟩ :=
  ⟨rfl, rfl, by decide⟩

/-- C2, amended: for every instance, `name` renders the resolved (non-empty)
values in schema order, each wrapped in `quote_char`, joined with a literal
`'.'` between the wrapped components (regardless of the configured
separator), and the empty string when no values are resolved. -/
theorem c2_name_render_amended (p : ParsedNamespaces) :
    name p = nameAmendedRender p := by
  simp only [name, nameAmendedRender]
  cases hv : (p.names.filter (fun q => truthyOpt q.2)).map (fun q => q.2.getD []) with
  | nil => simp [pyJoin]
  | cons v vs =>
    simp only [List.isEmpty_cons, if_false, Bool.false_eq_true]
    exact wrap_join p.quote_char v vs

/-- C4: the defaulting pass scans the schema right-to-left; a namespace that
is unresolved and has no default halts the entire pass (first conjunct, for
any state); with schema `[a, b, c]` and defaults for `a` and `b` only, an
input resolving only `c` yields `a = default(a)`, `b = default(b)`,
`c = input` (second conjunct), while an input resolving only `b` leaves `a`
and `c` unset and applies neither default (third conjunct). -/
theorem c4_defaulting :
    (∀ (d : List (Str × Str)) (ns : Str) (rest : List Str)
        (parsed : List (Str × Option Str)),
        truthyOpt (odGet parsed ns) = false → dLookup d ns = none →
        applyDefaults d (ns :: rest) parsed = parsed)
    ∧ from_name (.str "cc".toList) ["a".toList, "b".toList, "c".toList] '"' '.'
        [("a".toList, "da".toList), ("b".toList, "db".toList)] =
      .ok ⟨[("a".toList, some "da".toList), ("b".toList, some "db".toList),
        ("c".toList, some "cc".toList)], '"', '.'⟩
    ∧ from_name (.pns ⟨[("b".toList, some "bv".toList)], '"', '.'⟩)
        ["a".toList, "b".toList, "c".toList] '"' '.'
        [("a".toList, "da".toList), ("b".toList, "db".toList)] =
      .ok ⟨[("b".toList, some "bv".toList)], '"', '.'⟩ := by
  refine ⟨?_, rfl, rfl⟩
  intro d ns rest parsed h1 h2
  simp [applyDefaults, h1, h2]

/-- C4, witness for the halting conjunct at a concrete state. -/
theorem c4_defaulting_witness :
    applyDefaults [] ["x".toList] [("y".toList, some "v".toList)] =
      [("y".toList, some "v".toList)] :=
  c4_defaulting.1 [] "x".toList [] [("y".toList, some "v".toList)]
    (by decide) (by decide)

/-- C5: for a duplicate-free schema of length `n` and a raw string that
tokenizes to `k ≤ n` components, `from_name` with no defaults assigns the
components, in order, to the `k` rightmost schema entries and leaves the
`n - k` most-general entries unset. -/
theorem c5_right_align (raw : Str) (ns toks : List Str) (qc sep : Char)
    (hnd : ns.Nodup) (htok : tokenize qc sep raw = toks)
    (hlen : toks.length ≤ ns.length) :
    from_name (.str raw) ns qc sep [] =
      .ok ⟨ns.zip (List.replicate (ns.length - toks.length) none ++ toks.map some),
        qc, sep⟩ :=
  from_name_str_ok raw ns toks qc sep hnd htok hlen

/-- C5, witness: two components against a three-entry schema. -/
theorem c5_right_align_witness :
    from_name (.str "x.y".toList) ["a".toList, "b".toList, "c".toList] '"' '.' [] =
      .ok ⟨["a".toList, "b".toList, "c".toList].zip
        (List.replicate 1 none ++ ["x".toList, "y".toList].map some), '"', '.'⟩ :=
  c5_right_align "x.y".toList ["a".toList, "b".toList, "c".toList]
    ["x".toList, "y".toList] '"' '.' (by decide) rfl (by decide)

/-- C6: `from_name` on a raw string returns the overflow error exactly when
the string tokenizes to more components than the schema has slots (first
conjunct); otherwise an instance is returned (second conjunct); and the error
message contains the offending name and the expected schema form (third and
fourth conjuncts). -/
theorem c6_overflow (raw : Str) (ns : List Str) (qc sep : Char)
    (d : List (Str × Str)) :
    ((tokenize qc sep raw).length > ns.length ↔
      from_name (.str raw) ns qc sep d = .error (overflowMsg raw ns sep))
    ∧ ((tokenize qc sep raw).length ≤ ns.length →
      ∃ p, from_name (.str raw) ns qc sep d = .ok p)
    ∧ (∃ u v : Str, overflowMsg raw ns sep = u ++ raw ++ v)
    ∧ (∃ u v : Str, overflowMsg raw ns sep = u ++ schemaForm ns sep ++ v) := by
  have hts : (if raw.isEmpty then [] else tokenize qc sep raw) =
      tokenize qc sep raw := by
    cases raw <;> rfl
  refine ⟨⟨?_, ?_⟩, ?_, ?_, ?_⟩
  · intro hgt
    simp only [from_name, hts]
    rw [if_pos hgt]
  · intro he
    by_contra hle
    simp only [from_name, hts] at he
    rw [if_neg hle] at he
    cases he
  · intro hle
    refine ⟨init (applyDefaults d ns.reverse
      (odOfList ((popAssign ns.reverse (tokenize qc sep raw)).reverse)))
      none qc sep, ?_⟩
    simp only [from_name, hts]
    rw [if_neg (by omega)]
  · exact ⟨"Name '".toList,
      "' has too many namespaces. Should be of form: ".toList
        ++ schemaForm ns sep ++ ".".toList,
      by simp [overflowMsg, List.append_assoc]⟩
  · exact ⟨"Name '".toList ++ raw
        ++ "' has too many namespaces. Should be of form: ".toList,
      ".".toList, by simp [overflowMsg, List.append_assoc]⟩

/-- C6, witness: three components against a two-entry schema raise the
overflow error. -/
theorem c6_overflow_witness :
    from_name (.str "a.b.c".toList) ["x".toList, "y".toList] '"' '.' [] =
      .error (overflowMsg "a.b.c".toList ["x".toList, "y".toList] '.') :=
  (c6_overflow "a.b.c".toList ["x".toList, "y".toList] '"' '.' []).1.mp (by decide)

/-- C7: a quote-delimited span whose content has no quote character and no
backtick scans as a single verbatim component, and its content may contain
the separator (first conjunct); in particular `"my.table"` with quote `"`
and separator `.` yields the single component `my.table`, also through
`from_name` against a schema of length 1. -/
theorem c7_quoted_component :
    (∀ (qc sep : Char) (s rest : List Char), (∀ a ∈ s, a ≠ qc ∧ a ≠ '`') →
      tokenize qc sep (qc :: (s ++ qc :: rest)) = s :: tokenize qc sep rest)
    ∧ tokenize '"' '.' "\"my.table\"".toList = ["my.table".toList]
    ∧ from_name (.str "\"my.table\"".toList) ["table".toList] '"' '.' [] =
      .ok ⟨[("table".toList, some "my.table".toList)], '"', '.'⟩ :=
  ⟨tokenize_quoted, rfl, rfl⟩

/-- C7, witness: a quoted component containing the separator `,`. -/
theorem c7_quoted_component_witness :
    tokenize '"' ',' ('"' :: ("a,b".toList ++ '"' :: [])) =
      "a,b".toList :: tokenize '"' ',' [] :=
  c7_quoted_component.1 '"' ',' "a,b".toList [] (by decide)

/-- C8, counterexample: a fully resolved instance parsed with separator `,`
renders (with the literal `'.'` join) to a string that does not re-parse
against its own namespaces with the same quote character and separator — the
re-parse fails with the overflow error rather than reproducing the instance. -/
theorem c8_counterexample :
    from_name (.str "x,y".toList) ["a".toList, "b".toList] '"' ',' [] =
      .ok ⟨[("a".toList, some "x".toList), ("b".toList, some "y".toList)], '"', ','⟩
    ∧ List.all [("a".toList, some "x".toList), ("b".toList, some "y".toList)]
        (fun q => truthyOpt q.2) = true
    ∧ (from_name
        (.str (name ⟨[("a".toList, some "x".toList),
          ("b".toList, some "y".toList)], '"', ','⟩))
        (namespacesOf ⟨[("a".toList, some "x".toList),
          ("b".toList, some "y".toList)], '"', ','⟩)
        '"' ',' []).toOption = none :=
  ⟨rfl, rfl, rfl⟩

/-- C8, amended: the round trip holds when the separator is `'.'` (the
literal character the renderer joins with), the quote character is not `'.'`,
the schema is duplicate-free, and every resolved value is non-empty and
contains neither the quote character nor a backtick: re-parsing the rendered
name against the instance's own namespaces reproduces the instance. -/
theorem c8_roundtrip_amended (ns vals : List Str) (qc : Char)
    (hlen : ns.length = vals.length) (hnd : ns.Nodup) (hqc : qc ≠ '.')
    (hvals : ∀ v ∈ vals, v ≠ [] ∧ ∀ c ∈ v, c ≠ qc ∧ c ≠ '`') :
    from_name (.str (name ⟨ns.zip (vals.map some), qc, '.'⟩))
        (namespacesOf ⟨ns.zip (vals.map some), qc, '.'⟩) qc '.' [] =
      .ok ⟨ns.zip (vals.map some), qc, '.'⟩ := by
  have hnsf : namespacesOf ⟨ns.zip (vals.map some), qc, '.'⟩ = ns := by
    show (ns.zip (vals.map some)).map (fun q => q.1) = ns
    exact List.map_fst_zip ns _ (by simp [hlen])
  rw [hnsf]
  cases vals with
  | nil =>
    have hns : ns = [] := by
      cases ns with
      | nil => rfl
      | cons a l => simp at hlen
    subst hns
    rfl
  | cons v vs =>
    have hvalsEq : ((ns.zip ((v :: vs).map some)).filter
        (fun q => truthyOpt q.2)).map (fun q => q.2.getD []) = v :: vs :=
      filter_map_zip ns (v :: vs) hlen (fun w hw => (hvals w hw).1)
    have hname : name ⟨ns.zip ((v :: vs).map some), qc, '.'⟩ =
        [qc] ++ pyJoin ([qc] ++ ['.'] ++ [qc]) (v :: vs) ++ [qc] := by
      simp only [name, hvalsEq, List.isEmpty_cons, Bool.false_eq_true, if_false]
    rw [hname]
    have htok := tokenize_render qc hqc v vs (fun w hw c hc => (hvals w hw).2 c hc)
    rw [from_name_str_ok _ ns (v :: vs) qc '.' hnd htok hlen.ge]
    rw [Nat.sub_eq_zero_of_le hlen.le]
    simp

/-- C8, witness for the amended round trip at a concrete instance. -/
theorem c8_roundtrip_amended_witness :
    from_name
        (.str (name ⟨["a".toList, "b".toList].zip
          (["x".toList, "y".toList].map some), '"', '.'⟩))
        (namespacesOf ⟨["a".toList, "b".toList].zip
          (["x".toList, "y".toList].map some), '"', '.'⟩) '"' '.' [] =
      .ok ⟨["a".toList, "b".toList].zip (["x".toList, "y".toList].map some),
        '"', '.'⟩ :=
  c8_roundtrip_amended ["a".toList, "b".toList] ["x".toList, "y".toList] '"'
    (by decide) (by decide) (by decide) (by decide)

/-- C9: `parent` fails with the `KeyError` of popping an empty mapping
exactly on instances with an empty names mapping (first conjunct), succeeds
on every instance with at least one namespace (second conjunct), and
`from_name` with an empty schema produces such an empty instance, whose
`parent` raises (third and fourth conjuncts). -/
theorem c9_parent_empty :
    (∀ p : ParsedNamespaces, p.names = [] →
      parent p = .error ("KeyError: dictionary is empty".toList))
    ∧ (∀ p : ParsedNamespaces, p.names ≠ [] → ∃ q, parent p = .ok q)
    ∧ from_name (.str []) [] '"' '.' [] = .ok ⟨[], '"', '.'⟩
    ∧ parent ⟨[], '"', '.'⟩ = .error ("KeyError: dictionary is empty".toList) := by
  refine ⟨?_, ?_, rfl, rfl⟩
  · intro p h
    simp [parent, h]
  · intro p h
    refine ⟨init p.names.dropLast none p.quote_char p.separator, ?_⟩
    have : p.names.isEmpty = false := by
      cases hn : p.names with
      | nil => exact absurd hn h
      | cons a l => rfl
    simp [parent, this]

/-- C9, witness at the empty instance. -/
theorem c9_parent_empty_witness :
    parent ⟨[], '"', '.'⟩ = .error ("KeyError: dictionary is empty".toList) :=
  c9_parent_empty.1 ⟨[], '"', '.'⟩ rfl

/-- C10: the direct constructor given a mapping and a (non-empty,
duplicate-free) namespaces list produces exactly the pairs
`(ns, names.get(ns, None))` for the list's entries in the list's order:
mapping keys not in the list are dropped, list entries missing from the
mapping are set to `None`, and no error is raised. -/
theorem c10_init_namespaces (names : List (Str × Option Str)) (nss : List Str)
    (qc sep : Char) (h1 : nss ≠ []) (h2 : nss.Nodup) :
    (init names (some nss) qc sep).names =
      nss.map (fun ns => (ns, odGet names ns)) := by
  have hne : nss.isEmpty = false := by
    cases nss with
    | nil => exact absurd rfl h1
    | cons a l => rfl
  simp only [init, hne, Bool.false_eq_true, if_false]
  refine odOfList_self _ ?_
  have hk : (nss.map (fun ns => (ns, odGet names ns))).map (fun q => q.1) = nss := by
    rw [List.map_map]
    conv_rhs => rw [← List.map_id nss]
    exact List.map_congr_left (fun a _ => rfl)
  rw [hk]
  exact h2

/-- C10, witness: one dropped mapping key, one defaulted-to-`None` list
entry. -/
theorem c10_init_namespaces_witness :
    (init [("b".toList, some "y".toList), ("zz".toList, some "q".toList)]
      (some ["a".toList, "b".toList]) '"' '.').names =
      ["a".toList, "b".toList].map
        (fun ns => (ns, odGet [("b".toList, some "y".toList),
          ("zz".toList, some "q".toList)] ns)) :=
  c10_init_namespaces _ _ '"' '.' (by decide) (by decide)
